import Mathlib

/-!
Verification of the entity-anonymization core of the Redactify repository
(`src/redactify/main.py`, function `anonymize_text`).

The core logic is shallowly embedded below.  Text is a `List Char` (Python
strings index by code point), entity spans are `(start, end, label)` triples
with non-negative offsets, and the per-language placeholder table is an
association list.  Python's slice expressions `text[:start]`, `text[end:]`
and `text[start:end]` (for non-negative indices) are `List.take start`,
`List.drop end` and `(List.drop start).take (end - start)`: both clamp
out-of-range indices and return the empty list for reversed ranges, exactly
like Python slices on non-negative indices.  Python's `sorted(..., key=lambda
x: x[0], reverse=True)` is a stable descending sort by the first component,
embedded as a stable insertion sort.  Python's f-string `f"{w}_{n}"` prints
`n` in decimal, embedded by `decRepr`.
-/

/-- An entity span as produced by the detector: start offset, end offset,
category label (`ent.start_char`, `ent.end_char`, `ent.label_`). -/
abbrev Ent := Nat × Nat × String

/-- A pending replacement: start offset, end offset, placeholder string
(the elements of the Python `replacements` list). -/
abbrev Repl := Nat × Nat × List Char

/-- Decimal digits of `n` (most significant first), with explicit fuel so
that the recursion is structural; `fuel` must exceed the number of digits. -/
def decReprAux : Nat → Nat → List Char
  | 0, _ => []
  | fuel + 1, n =>
    if n < 10 then [Nat.digitChar n]
    else decReprAux fuel (n / 10) ++ [Nat.digitChar (n % 10)]

/-- Decimal representation of `n`, as Python's f-string prints it. -/
def decRepr (n : Nat) : List Char := decReprAux (n + 1) n

/-- The matched substring `text[start:end]` of an entity (spaCy's `ent.text`). -/
def entText (t : List Char) (s e : Nat) : List Char := (t.drop s).take (e - s)

/-- The placeholder string `f"{w}_{n}"` built by the Python loop. -/
def phStr (w : List Char) (n : Nat) : List Char := w ++ '_' :: decRepr n

/-- One iteration of the Python `for ent in doc.ents` loop.  The state is the
pair `(placeholder_counter, replacements)`; the counter is an association
list from matched substrings to placeholder strings, in insertion order, so
`st.1.length` is Python's `len(placeholder_counter)`. -/
def entStep (t : List Char) (m : List (String × List Char))
    (st : List (List Char × List Char) × List Repl) (ent : Ent) :
    List (List Char × List Char) × List Repl :=
  match ent with
  | (s, e, lab) =>
    match List.lookup lab m with
    | none => st
    | some w =>
      let k := entText t s e
      match List.lookup k st.1 with
      | some ph => (st.1, st.2 ++ [(s, e, ph)])
      | none =>
        (st.1 ++ [(k, phStr w (st.1.length + 1))],
         st.2 ++ [(s, e, phStr w (st.1.length + 1))])

/-- The full entity loop, from the empty counter and empty replacement list. -/
def entFold (t : List Char) (ents : List Ent) (m : List (String × List Char)) :
    List (List Char × List Char) × List Repl :=
  ents.foldl (entStep t m) ([], [])

/-- The final `placeholder_counter` of the Python loop. -/
def buildCounter (t : List Char) (ents : List Ent)
    (m : List (String × List Char)) : List (List Char × List Char) :=
  (entFold t ents m).1

/-- The final `replacements` list of the Python loop, in entity order. -/
def buildReplacements (t : List Char) (ents : List Ent)
    (m : List (String × List Char)) : List Repl :=
  (entFold t ents m).2

/-- Stable insertion of a replacement into a list sorted by descending start:
`r` goes in front of the first element whose start is at most `r`'s. -/
def insertDesc (r : Repl) : List Repl → List Repl
  | [] => [r]
  | y :: ys => if y.1 ≤ r.1 then r :: y :: ys else y :: insertDesc r ys

/-- Stable sort by descending start offset, Python's
`sorted(replacements, key=lambda x: x[0], reverse=True)`. -/
def sortDescStart (l : List Repl) : List Repl := l.foldr insertDesc []

/-- One substitution `text = text[:start] + placeholder + text[end:]`. -/
def applyRepl (t : List Char) (r : Repl) : List Char :=
  t.take r.1 ++ r.2.2 ++ t.drop r.2.1

/-- The substitution loop over an already-ordered replacement list. -/
def applyAll (t : List Char) (rs : List Repl) : List Char :=
  rs.foldl applyRepl t

/-- The anonymization core: build the replacement list, sort it by descending
start offset, and apply each substitution.  This is `anonymize_text` with the
detector output `doc.ents` and the placeholder table made explicit inputs. -/
def anonymize_core (t : List Char) (ents : List Ent)
    (m : List (String × List Char)) : List Char :=
  applyAll t (sortDescStart (buildReplacements t ents m))

/-- The `placeholder_mapping` dictionary built inside `anonymize_text`:
keys PERSON, DATE, GPE, with Hebrew or English words by model language. -/
def placeholder_mapping (heb : Bool) : List (String × List Char) :=
  [("PERSON", if heb then "אדם".data else "person".data),
   ("DATE", if heb then "תאריך".data else "date".data),
   ("GPE", if heb then "מיקום".data else "location".data)]

/-- The repository's `anonymize_text`, over a string, a detector output and a
language flag (`nlp.lang == "he"`). -/
def anonymize_text (text : String) (ents : List Ent) (heb : Bool) : String :=
  ⟨anonymize_core text.data ents (placeholder_mapping heb)⟩

/-- Shift a replacement's offsets down by `d` (used to re-express spans over
a suffix of the text). -/
def shiftRepl (d : Nat) (r : Repl) : Repl := (r.1 - d, r.2.1 - d, r.2.2)

/-- Reference left-to-right rewrite, following the specification's wording:
the result concatenates the untouched segments of the text with the assigned
placeholders in left-to-right order.  `d` is the position of the head of `t`
in the original text (spans are in original coordinates). -/
def spliceAux : List Char → Nat → List Repl → List Char
  | t, _, [] => t
  | t, d, (s, e, p) :: rest => t.take (s - d) ++ p ++ spliceAux (t.drop (e - d)) e rest

/-- Reference rewrite over a list of spans sorted ascending by start. -/
def spliceSpec (t : List Char) (rs : List Repl) : List Char := spliceAux t 0 rs

/-- A replacement list (read ascending by start) is well formed for a text of
length `len` when every span satisfies `start ≤ end` and `end ≤ len`, and
each span ends at or before every later span starts.  This is the claims'
"valid, non-overlapping batch of spans", stated on the start-ordered list. -/
def wellFormedB (len : Nat) : List Repl → Bool
  | [] => true
  | (s, e, _) :: rest =>
    decide (s ≤ e) && decide (e ≤ len) && rest.all (fun r => decide (e ≤ r.1))
      && wellFormedB len rest

/-- The list is sorted by non-increasing start offset. -/
def sortedDescB : List Repl → Bool
  | [] => true
  | [_] => true
  | r1 :: r2 :: rest => decide (r2.1 ≤ r1.1) && sortedDescB (r2 :: rest)

/-- Position `i` of the original text lies inside some replacement span. -/
def coveredB (i : Nat) (rs : List Repl) : Bool :=
  rs.any (fun r => decide (r.1 ≤ i) && decide (i < r.2.1))

/-- Characters of `t` (whose head sits at position `i` of the original text)
at positions not covered by any span, in their original order. -/
def outsideAux (rs : List Repl) : Nat → List Char → List Char
  | _, [] => []
  | i, c :: cs =>
    if coveredB i rs then outsideAux rs (i + 1) cs
    else c :: outsideAux rs (i + 1) cs

/-- All characters of `t` outside every span of `rs`, in original order. -/
def outsideChars (t : List Char) (rs : List Repl) : List Char := outsideAux rs 0 t

/-- One step of the first-occurrence walk: record a new distinct in-scope
matched substring together with the placeholder word of the category under
which it was first seen. -/
def firstStep (t : List Char) (m : List (String × List Char))
    (acc : List (List Char × List Char)) (ent : Ent) :
    List (List Char × List Char) :=
  match ent with
  | (s, e, lab) =>
    match List.lookup lab m with
    | none => acc
    | some w =>
      match List.lookup (entText t s e) acc with
      | some _ => acc
      | none => acc ++ [(entText t s e, w)]

/-- The distinct in-scope matched substrings of a document in first-occurrence
order, each paired with its first-seen category's placeholder word. -/
def firstKeys (t : List Char) (ents : List Ent)
    (m : List (String × List Char)) : List (List Char × List Char) :=
  ents.foldl (firstStep t m) []

/-- Turn the first-occurrence table into a placeholder table: the entry at
position `i` (counting from `n`) receives ordinal `n + i + 1`, so with
`n = 0` the ordinals are 1-based in first-occurrence order. -/
def mapCS (n : Nat) : List (List Char × List Char) → List (List Char × List Char)
  | [] => []
  | (k, w) :: rest => (k, phStr w (n + 1)) :: mapCS (n + 1) rest

theorem lookup_append_some {α β : Type} [BEq α] [LawfulBEq α]
    {l1 l2 : List (α × β)} {a : α} {v : β}
    (h : List.lookup a l1 = some v) :
    List.lookup a (l1 ++ l2) = some v := by
  rw [List.lookup_append, h]; rfl

theorem lookup_append_none {α β : Type} [BEq α] [LawfulBEq α]
    {l1 l2 : List (α × β)} {a : α}
    (h : List.lookup a l1 = none) :
    List.lookup a (l1 ++ l2) = List.lookup a l2 := by
  rw [List.lookup_append, h]; rfl

theorem entStep_split (t : List Char) (m : List (String × List Char))
    (st : List (List Char × List Char) × List Repl) (ent : Ent) :
    entStep t m st ent
      = ((entStep t m (st.1, []) ent).1,
         st.2 ++ (entStep t m (st.1, []) ent).2) := by
  rcases ent with ⟨s, e, lab⟩
  cases hlab : List.lookup lab m with
  | none => simp [entStep, hlab]
  | some w =>
    cases hk : List.lookup (entText t s e) st.1 with
    | none => simp [entStep, hlab, hk]
    | some ph => simp [entStep, hlab, hk]

theorem entFold_split (t : List Char) (m : List (String × List Char)) :
    ∀ (ents : List Ent) (st : List (List Char × List Char) × List Repl),
    List.foldl (entStep t m) st ents
      = ((List.foldl (entStep t m) (st.1, []) ents).1,
         st.2 ++ (List.foldl (entStep t m) (st.1, []) ents).2) := by
  intro ents
  induction ents with
  | nil => intro st; simp
  | cons e ents ih =>
    intro st
    simp only [List.foldl_cons]
    rw [ih (entStep t m st e), ih (entStep t m (st.1, []) e),
        entStep_split t m st e]
    simp [List.append_assoc]

theorem entFold_lookup_inv (t : List Char) (m : List (String × List Char)) :
    ∀ (ents : List Ent) (c : List (List Char × List Char)) (rs : List Repl),
    (∀ r ∈ rs, List.lookup (entText t r.1 r.2.1) c = some r.2.2) →
    ∀ r ∈ (List.foldl (entStep t m) (c, rs) ents).2,
      List.lookup (entText t r.1 r.2.1)
        (List.foldl (entStep t m) (c, rs) ents).1 = some r.2.2 := by
  intro ents
  induction ents with
  | nil => intro c rs h; simpa using h
  | cons ent ents ih =>
    intro c rs h
    simp only [List.foldl_cons]
    rcases ent with ⟨s, e, lab⟩
    cases hlab : List.lookup lab m with
    | none =>
      have hstep : entStep t m (c, rs) (s, e, lab) = (c, rs) := by
        simp [entStep, hlab]
      rw [hstep]
      exact ih c rs h
    | some w =>
      cases hk : List.lookup (entText t s e) c with
      | some ph =>
        have hstep : entStep t m (c, rs) (s, e, lab)
            = (c, rs ++ [(s, e, ph)]) := by
          simp [entStep, hlab, hk]
        rw [hstep]
        apply ih
        intro r hr
        rcases List.mem_append.1 hr with h1 | h2
        · exact h r h1
        · have : r = (s, e, ph) := List.mem_singleton.1 h2
          subst this
          simpa using hk
      | none =>
        have hstep : entStep t m (c, rs) (s, e, lab)
            = (c ++ [(entText t s e, phStr w (c.length + 1))],
               rs ++ [(s, e, phStr w (c.length + 1))]) := by
          simp [entStep, hlab, hk]
        rw [hstep]
        apply ih
        intro r hr
        rcases List.mem_append.1 hr with h1 | h2
        · exact lookup_append_some (h r h1)
        · have : r = (s, e, phStr w (c.length + 1)) := List.mem_singleton.1 h2
          subst this
          rw [lookup_append_none hk]
          simp [entText]

/-- C3: within one document, any two replacement entries built by the
anonymization loop whose matched substrings text[start:end] are identical
receive the identical placeholder string.  Every in-scope entity of the
batch contributes exactly one entry to `buildReplacements`, so this states
that two in-scope spans with identical matched text get the same
placeholder; no non-overlap hypothesis is even needed. -/
theorem consistent_identity (t : List Char) (ents : List Ent)
    (m : List (String × List Char)) (r1 r2 : Repl)
    (h1 : r1 ∈ buildReplacements t ents m)
    (h2 : r2 ∈ buildReplacements t ents m)
    (hsub : entText t r1.1 r1.2.1 = entText t r2.1 r2.2.1) :
    r1.2.2 = r2.2.2 := by
  have k1 := entFold_lookup_inv t m ents [] [] (by simp) r1 h1
  have k2 := entFold_lookup_inv t m ents [] [] (by simp) r2 h2
  rw [hsub, k2] at k1
  exact (Option.some.injEq _ _ ▸ k1).symm

theorem consistent_identity_witness :
    ((0, 5, "person_1".data) : Repl).2.2 = ((15, 20, "person_1".data) : Repl).2.2 :=
  consistent_identity "Alice met Bob. Alice left.".data
    [(0, 5, "PERSON"), (10, 13, "PERSON"), (15, 20, "PERSON")]
    [("PERSON", "person".data)]
    (0, 5, "person_1".data) (15, 20, "person_1".data)
    (by decide) (by decide) (by decide)

theorem mapCS_length (n : Nat) (l : List (List Char × List Char)) :
    (mapCS n l).length = l.length := by
  induction l generalizing n with
  | nil => rfl
  | cons p rest ih =>
    rcases p with ⟨k, w⟩
    simp [mapCS, ih (n + 1)]

theorem mapCS_append_singleton (n : Nat) (l : List (List Char × List Char))
    (k w : List Char) :
    mapCS n (l ++ [(k, w)]) = mapCS n l ++ [(k, phStr w (n + l.length + 1))] := by
  induction l generalizing n with
  | nil => simp [mapCS]
  | cons p rest ih =>
    rcases p with ⟨k', w'⟩
    have harith : n + 1 + rest.length + 1 = n + (rest.length + 1) + 1 := by omega
    simp only [List.cons_append, mapCS, List.length_cons, harith]
    rw [show rest.append [(k, w)] = rest ++ [(k, w)] from rfl, ih (n + 1), harith]

theorem lookup_mapCS_none_iff (n : Nat) (l : List (List Char × List Char))
    (a : List Char) :
    List.lookup a (mapCS n l) = none ↔ List.lookup a l = none := by
  induction l generalizing n with
  | nil => simp [mapCS]
  | cons p rest ih =>
    rcases p with ⟨k, w⟩
    cases hk : a == k with
    | true => simp [mapCS, List.lookup_cons, hk]
    | false => simpa [mapCS, List.lookup_cons, hk] using ih (n + 1)

theorem lookup_mapCS_some (a v : List Char) :
    ∀ (l : List (List Char × List Char)) (n : Nat),
    List.lookup a (mapCS n l) = some v →
    ∃ w j, v = phStr w j ∧ n + 1 ≤ j := by
  intro l
  induction l with
  | nil => intro n h; simp [mapCS] at h
  | cons p rest ih =>
    intro n h
    rcases p with ⟨k, w⟩
    cases hk : a == k with
    | true =>
      simp only [mapCS, List.lookup_cons, hk] at h
      exact ⟨w, n + 1, (Option.some.injEq _ _ ▸ h).symm, Nat.le_refl _⟩
    | false =>
      simp only [mapCS, List.lookup_cons, hk] at h
      rcases ih (n + 1) h with ⟨w', j, hv, hj⟩
      exact ⟨w', j, hv, by omega⟩

theorem entFold_counter (t : List Char) (m : List (String × List Char)) :
    ∀ (ents : List Ent) (acc : List (List Char × List Char)) (rs : List Repl),
    (List.foldl (entStep t m) (mapCS 0 acc, rs) ents).1
      = mapCS 0 (List.foldl (firstStep t m) acc ents) := by
  intro ents
  induction ents with
  | nil => intro acc rs; rfl
  | cons ent ents ih =>
    intro acc rs
    simp only [List.foldl_cons]
    rcases ent with ⟨s, e, lab⟩
    cases hlab : List.lookup lab m with
    | none =>
      have h1 : entStep t m (mapCS 0 acc, rs) (s, e, lab) = (mapCS 0 acc, rs) := by
        simp [entStep, hlab]
      have h2 : firstStep t m acc (s, e, lab) = acc := by
        simp [firstStep, hlab]
      rw [h1, h2]
      exact ih acc rs
    | some w =>
      cases hk : List.lookup (entText t s e) acc with
      | some w' =>
        have hk' : List.lookup (entText t s e) (mapCS 0 acc) ≠ none := by
          intro hcon
          rw [lookup_mapCS_none_iff] at hcon
          simp [hk] at hcon
        rcases Option.ne_none_iff_exists'.1 hk' with ⟨ph, hph⟩
        have h1 : entStep t m (mapCS 0 acc, rs) (s, e, lab)
            = (mapCS 0 acc, rs ++ [(s, e, ph)]) := by
          simp [entStep, hlab, hph]
        have h2 : firstStep t m acc (s, e, lab) = acc := by
          simp [firstStep, hlab, hk]
        rw [h1, h2]
        exact ih acc (rs ++ [(s, e, ph)])
      | none =>
        have hk' : List.lookup (entText t s e) (mapCS 0 acc) = none := by
          rw [lookup_mapCS_none_iff]
          exact hk
        have h1 : entStep t m (mapCS 0 acc, rs) (s, e, lab)
            = (mapCS 0 acc ++ [(entText t s e, phStr w ((mapCS 0 acc).length + 1))],
               rs ++ [(s, e, phStr w ((mapCS 0 acc).length + 1))]) := by
          simp [entStep, hlab, hk']
        have h2 : firstStep t m acc (s, e, lab) = acc ++ [(entText t s e, w)] := by
          simp [firstStep, hlab, hk]
        rw [h1, h2]
        have h3 : mapCS 0 acc ++ [(entText t s e, phStr w ((mapCS 0 acc).length + 1))]
            = mapCS 0 (acc ++ [(entText t s e, w)]) := by
          rw [mapCS_append_singleton, mapCS_length]
          simp
        rw [h3]
        exact ih (acc ++ [(entText t s e, w)]) (rs ++ [(s, e, phStr w ((mapCS 0 acc).length + 1))])

theorem buildCounter_eq_firstKeys (t : List Char) (ents : List Ent)
    (m : List (String × List Char)) :
    buildCounter t ents m = mapCS 0 (firstKeys t ents m) :=
  entFold_counter t m ents [] []

theorem decReprAux_irrel : ∀ (f1 f2 n : Nat), n < f1 → n < f2 →
    decReprAux f1 n = decReprAux f2 n := by
  intro f1
  induction f1 with
  | zero => intro f2 n h1 h2; omega
  | succ f ih =>
    intro f2 n h1 h2
    cases f2 with
    | zero => omega
    | succ g =>
      simp only [decReprAux]
      by_cases h10 : n < 10
      · simp [h10]
      · simp only [if_neg h10]
        have hdiv : n / 10 < n := Nat.div_lt_self (by omega) (by omega)
        rw [ih g (n / 10) (by omega) (by omega)]

theorem decRepr_eq (n : Nat) :
    decRepr n = if n < 10 then [Nat.digitChar n]
      else decRepr (n / 10) ++ [Nat.digitChar (n % 10)] := by
  show decReprAux (n + 1) n = _
  simp only [decReprAux]
  by_cases h10 : n < 10
  · simp [h10]
  · simp only [if_neg h10]
    have hdiv : n / 10 < n := Nat.div_lt_self (by omega) (by omega)
    rw [decReprAux_irrel n (n / 10 + 1) (n / 10) (by omega) (by omega)]
    rfl

theorem decRepr_digit_chars : ∀ (n : Nat), ∀ c ∈ decRepr n, c.isDigit = true := by
  intro n
  induction n using Nat.strong_induction_on with
  | _ n ih =>
    intro c hc
    rw [decRepr_eq] at hc
    have hd : ∀ d, d < 10 → (Nat.digitChar d).isDigit = true := by decide
    by_cases h10 : n < 10
    · rw [if_pos h10] at hc
      have hceq : c = Nat.digitChar n := by simpa using hc
      subst hceq
      exact hd n h10
    · rw [if_neg h10] at hc
      rcases List.mem_append.1 hc with h1 | h2
      · exact ih (n / 10) (Nat.div_lt_self (by omega) (by omega)) c h1
      · have hceq : c = Nat.digitChar (n % 10) := by simpa using h2
        subst hceq
        exact hd (n % 10) (Nat.mod_lt n (by omega))

theorem decRepr_ne_nil (n : Nat) : decRepr n ≠ [] := by
  rw [decRepr_eq]
  by_cases h10 : n < 10 <;> simp [h10]

theorem decRepr_eq_digits : ∀ (n : Nat), 1 ≤ n →
    decRepr n = ((Nat.digits 10 n).map Nat.digitChar).reverse := by
  intro n
  induction n using Nat.strong_induction_on with
  | _ n ih =>
    intro hn
    rw [decRepr_eq, Nat.digits_def' (by omega : (1:Nat) < 10) (by omega : 0 < n)]
    by_cases h10 : n < 10
    · rw [if_pos h10, Nat.mod_eq_of_lt h10, Nat.div_eq_of_lt h10]
      simp
    · rw [if_neg h10]
      have hdiv : n / 10 < n := Nat.div_lt_self (by omega) (by omega)
      have hone : 1 ≤ n / 10 := by
        rcases Nat.lt_or_ge (n / 10) 1 with h | h
        · exfalso
          have : n / 10 = 0 := by omega
          have := Nat.div_eq_zero_iff (by omega : 0 < 10) |>.1 this
          omega
        · exact h
      rw [ih (n / 10) hdiv hone]
      simp

theorem map_digitChar_inj : ∀ (l1 l2 : List Nat), (∀ x ∈ l1, x < 10) →
    (∀ x ∈ l2, x < 10) → l1.map Nat.digitChar = l2.map Nat.digitChar →
    l1 = l2 := by
  intro l1
  induction l1 with
  | nil =>
    intro l2 _ _ h
    cases l2 with
    | nil => rfl
    | cons y ys => simp at h
  | cons x xs ih =>
    intro l2 h1 h2 h
    cases l2 with
    | nil => simp at h
    | cons y ys =>
      simp only [List.map_cons, List.cons.injEq] at h
      have hd : ∀ a, a < 10 → ∀ b, b < 10 →
          Nat.digitChar a = Nat.digitChar b → a = b := by decide
      have hx : x = y := hd x (h1 x (by simp)) y (h2 y (by simp)) h.1
      have hxs : xs = ys :=
        ih ys (fun z hz => h1 z (by simp [hz])) (fun z hz => h2 z (by simp [hz])) h.2
      rw [hx, hxs]

theorem decRepr_inj_pos (m n : Nat) (hm : 1 ≤ m) (hn : 1 ≤ n)
    (h : decRepr m = decRepr n) : m = n := by
  rw [decRepr_eq_digits m hm, decRepr_eq_digits n hn] at h
  have h2 := List.reverse_injective h
  have h3 := map_digitChar_inj _ _
    (fun x hx => Nat.digits_lt_base (by omega) hx)
    (fun x hx => Nat.digits_lt_base (by omega) hx) h2
  exact Nat.digits_inj_iff.1 h3

theorem underscore_digits_cancel : ∀ (w1 w2 d1 d2 : List Char),
    (∀ c ∈ d1, c.isDigit = true) → (∀ c ∈ d2, c.isDigit = true) →
    w1 ++ '_' :: d1 = w2 ++ '_' :: d2 → w1 = w2 ∧ d1 = d2 := by
  intro w1
  induction w1 with
  | nil =>
    intro w2 d1 d2 h1 h2 h
    cases w2 with
    | nil => simpa using h
    | cons c w2' =>
      exfalso
      simp only [List.nil_append, List.cons_append, List.cons.injEq] at h
      have hund : ('_' : Char) ∈ d1 := by
        rw [h.2]
        exact List.mem_append_right _ (List.mem_cons_self _ _)
      exact absurd (h1 '_' hund) (by decide)
  | cons c w1' ih =>
    intro w2 d1 d2 h1 h2 h
    cases w2 with
    | nil =>
      exfalso
      simp only [List.nil_append, List.cons_append, List.cons.injEq] at h
      have hund : ('_' : Char) ∈ d2 := by
        rw [← h.2]
        exact List.mem_append_right _ (List.mem_cons_self _ _)
      exact absurd (h2 '_' hund) (by decide)
    | cons c' w2' =>
      simp only [List.cons_append, List.cons.injEq] at h
      rcases ih w2' d1 d2 h1 h2 h.2 with ⟨hw, hdd⟩
      exact ⟨by rw [h.1, hw], hdd⟩

theorem phStr_ord_inj (w1 w2 : List Char) (n1 n2 : Nat) (h1 : 1 ≤ n1)
    (h2 : 1 ≤ n2) (h : phStr w1 n1 = phStr w2 n2) : w1 = w2 ∧ n1 = n2 := by
  rcases underscore_digits_cancel w1 w2 (decRepr n1) (decRepr n2)
      (decRepr_digit_chars n1) (decRepr_digit_chars n2) h with ⟨hw, hdd⟩
  exact ⟨hw, decRepr_inj_pos n1 n2 h1 h2 hdd⟩

theorem lookup_mapCS_distinct : ∀ (l : List (List Char × List Char)) (n : Nat)
    (k1 k2 v1 v2 : List Char),
    List.lookup k1 (mapCS n l) = some v1 →
    List.lookup k2 (mapCS n l) = some v2 →
    k1 ≠ k2 → v1 ≠ v2 := by
  intro l
  induction l with
  | nil => intro n k1 k2 v1 v2 h1 _ _; simp [mapCS] at h1
  | cons p rest ih =>
    intro n k1 k2 v1 v2 h1 h2 hk
    rcases p with ⟨k, w⟩
    cases hb1 : k1 == k with
    | true =>
      cases hb2 : k2 == k with
      | true =>
        exact absurd ((eq_of_beq hb1).trans (eq_of_beq hb2).symm) hk
      | false =>
        simp only [mapCS, List.lookup_cons, hb1] at h1
        simp only [mapCS, List.lookup_cons, hb2] at h2
        rcases lookup_mapCS_some k2 v2 rest (n + 1) h2 with ⟨w', j, hv2, hj⟩
        intro hcon
        have heq : phStr w (n + 1) = phStr w' j := by
          rw [← hv2, ← hcon]
          exact (Option.some.injEq _ _ ▸ h1)
        have := (phStr_ord_inj w w' (n + 1) j (by omega) (by omega) heq).2
        omega
    | false =>
      cases hb2 : k2 == k with
      | true =>
        simp only [mapCS, List.lookup_cons, hb1] at h1
        simp only [mapCS, List.lookup_cons, hb2] at h2
        rcases lookup_mapCS_some k1 v1 rest (n + 1) h1 with ⟨w', j, hv1, hj⟩
        intro hcon
        have heq : phStr w (n + 1) = phStr w' j := by
          rw [← hv1, hcon]
          exact (Option.some.injEq _ _ ▸ h2)
        have := (phStr_ord_inj w w' (n + 1) j (by omega) (by omega) heq).2
        omega
      | false =>
        simp only [mapCS, List.lookup_cons, hb1] at h1
        simp only [mapCS, List.lookup_cons, hb2] at h2
        exact ih (n + 1) k1 k2 v1 v2 h1 h2 hk

/-- C4: the placeholder table built by the anonymization loop assigns each
distinct matched substring a placeholder of the form word ++ underscore ++
decimal ordinal, where the ordinal is a 1-based counter incremented once per
newly-seen distinct substring (not per occurrence) and numbering follows
first-occurrence (left-to-right) order: the counter equals `mapCS 0` of the
first-occurrence table.  Consequently any two different matched substrings
receive different placeholder strings (in particular two different
substrings of the same category, whose placeholders share the word and
differ in the ordinal). -/
theorem placeholder_numbering (t : List Char) (ents : List Ent)
    (m : List (String × List Char)) :
    buildCounter t ents m = mapCS 0 (firstKeys t ents m)
    ∧ ∀ k1 k2 v1 v2 : List Char,
        List.lookup k1 (buildCounter t ents m) = some v1 →
        List.lookup k2 (buildCounter t ents m) = some v2 →
        k1 ≠ k2 → v1 ≠ v2 := by
  have hc := buildCounter_eq_firstKeys t ents m
  refine ⟨hc, ?_⟩
  intro k1 k2 v1 v2 h1 h2 hk
  rw [hc] at h1 h2
  exact lookup_mapCS_distinct (firstKeys t ents m) 0 k1 k2 v1 v2 h1 h2 hk

theorem placeholder_numbering_witness : "person_1".data ≠ "person_2".data :=
  (placeholder_numbering "ab".data [(0, 1, "PERSON"), (1, 2, "PERSON")]
    [("PERSON", "person".data)]).2 "a".data "b".data
    "person_1".data "person_2".data (by decide) (by decide) (by decide)

/-- C10: placeholder identity is keyed solely by the matched substring,
ignoring the entity's category label: every replacement entry's placeholder
is exactly the entry of the first-occurrence table `firstKeys` looked up by
its matched substring alone.  Since `firstKeys` stores, for each distinct
substring, the placeholder word of the category under which the substring
was FIRST seen, every later occurrence of that substring (under any other
in-scope category) receives that same placeholder, and the other category's
word is never used for it. -/
theorem identity_keyed_by_substring (t : List Char) (ents : List Ent)
    (m : List (String × List Char)) (r : Repl)
    (hr : r ∈ buildReplacements t ents m) :
    List.lookup (entText t r.1 r.2.1) (mapCS 0 (firstKeys t ents m))
      = some r.2.2 := by
  have h : List.lookup (entText t r.1 r.2.1) (buildCounter t ents m)
      = some r.2.2 := entFold_lookup_inv t m ents [] [] (by simp) r hr
  rw [buildCounter_eq_firstKeys] at h
  exact h

theorem identity_keyed_by_substring_witness :
    List.lookup (entText "Paris".data 0 5)
      (mapCS 0 (firstKeys "Paris".data [(0, 5, "GPE"), (0, 5, "PERSON")]
        [("PERSON", "person".data), ("GPE", "location".data)]))
      = some "location_1".data :=
  identity_keyed_by_substring "Paris".data [(0, 5, "GPE"), (0, 5, "PERSON")]
    [("PERSON", "person".data), ("GPE", "location".data)]
    (0, 5, "location_1".data) (by decide)

theorem wellFormedB_cons {len s e : Nat} {p : List Char} {rest : List Repl}
    (h : wellFormedB len ((s, e, p) :: rest) = true) :
    s ≤ e ∧ e ≤ len ∧ (∀ r ∈ rest, e ≤ r.1) ∧ wellFormedB len rest = true := by
  simp only [wellFormedB, Bool.and_eq_true, decide_eq_true_eq,
    List.all_eq_true] at h
  exact ⟨h.1.1.1, h.1.1.2, h.1.2, h.2⟩

theorem wellFormedB_bounds {len : Nat} :
    ∀ {rs : List Repl}, wellFormedB len rs = true →
    ∀ r ∈ rs, r.1 ≤ r.2.1 ∧ r.2.1 ≤ len := by
  intro rs
  induction rs with
  | nil => intro _ r hr; simp at hr
  | cons x rest ih =>
    intro h r hr
    rcases x with ⟨s, e, p⟩
    obtain ⟨h1, h2, _, h4⟩ := wellFormedB_cons h
    rcases List.mem_cons.1 hr with rfl | hr'
    · exact ⟨h1, h2⟩
    · exact ih h4 r hr'

theorem applyAll_prefix : ∀ (rs : List Repl) (t : List Char) (d : Nat),
    d ≤ t.length → (∀ r ∈ rs, d ≤ r.1 ∧ r.1 ≤ r.2.1) →
    applyAll t rs = t.take d ++ applyAll (t.drop d) (rs.map (shiftRepl d)) := by
  intro rs
  induction rs with
  | nil => intro t d _ _; simp [applyAll]
  | cons r rest ih =>
    intro t d hd hall
    rcases r with ⟨s, e, p⟩
    have hds : d ≤ s := (hall (s, e, p) (List.mem_cons_self _ _)).1
    have hse : s ≤ e := (hall (s, e, p) (List.mem_cons_self _ _)).2
    have h1 : t.take d ++ (t.drop d).take (s - d) = t.take s := by
      rw [← List.take_add]
      congr 1
      omega
    have h2 : (t.drop d).drop (e - d) = t.drop e := by
      rw [List.drop_drop]
      congr 1
      omega
    have hstep : applyRepl t (s, e, p)
        = t.take d ++ applyRepl (t.drop d) (shiftRepl d (s, e, p)) := by
      simp only [applyRepl, shiftRepl]
      rw [h2, ← h1]
      simp [List.append_assoc]
    have htl : (t.take d).length = d := by
      rw [List.length_take]
      omega
    have h3 : ∀ X : List Char, (t.take d ++ X).take d = t.take d := by
      intro X
      rw [List.take_append_of_le_length (by omega : d ≤ (t.take d).length)]
      rw [List.take_take]
      congr 1
      omega
    have h4 : ∀ X : List Char, (t.take d ++ X).drop d = X := by
      intro X
      rw [List.drop_append_of_le_length (by omega : d ≤ (t.take d).length)]
      rw [List.drop_of_length_le (by omega : (t.take d).length ≤ d)]
      rfl
    have hlen : d ≤ (applyRepl t (s, e, p)).length := by
      simp [applyRepl]
      omega
    calc applyAll t ((s, e, p) :: rest)
        = applyAll (applyRepl t (s, e, p)) rest := rfl
      _ = (applyRepl t (s, e, p)).take d
            ++ applyAll ((applyRepl t (s, e, p)).drop d) (rest.map (shiftRepl d)) :=
          ih (applyRepl t (s, e, p)) d hlen
            (fun r hr => hall r (List.mem_cons_of_mem _ hr))
      _ = t.take d ++ applyAll
            (applyRepl (t.drop d) (shiftRepl d (s, e, p))) (rest.map (shiftRepl d)) := by
          rw [hstep, h3, h4]
      _ = t.take d ++ applyAll (t.drop d) (((s, e, p) :: rest).map (shiftRepl d)) := rfl

theorem spliceAux_shift : ∀ (rs : List Repl) (t : List Char) (d a : Nat),
    d ≤ a → (∀ r ∈ rs, d ≤ r.1 ∧ d ≤ r.2.1) →
    spliceAux t a rs = spliceAux t (a - d) (rs.map (shiftRepl d)) := by
  intro rs
  induction rs with
  | nil => intro t d a _ _; rfl
  | cons r rest ih =>
    intro t d a hda hall
    rcases r with ⟨s, e, p⟩
    have h1 : d ≤ s := (hall (s, e, p) (List.mem_cons_self _ _)).1
    have h2 : d ≤ e := (hall (s, e, p) (List.mem_cons_self _ _)).2
    simp only [List.map_cons, shiftRepl, spliceAux]
    rw [show s - d - (a - d) = s - a by omega, show e - d - (a - d) = e - a by omega]
    rw [ih (t.drop (e - a)) d e h2 (fun r hr => hall r (List.mem_cons_of_mem _ hr))]

theorem wellFormedB_shift : ∀ (rs : List Repl) (len e : Nat),
    (∀ r ∈ rs, e ≤ r.1) → wellFormedB len rs = true →
    wellFormedB (len - e) (rs.map (shiftRepl e)) = true := by
  intro rs
  induction rs with
  | nil => intro len e _ _; rfl
  | cons r rest ih =>
    intro len e hge hwf
    rcases r with ⟨s', e', p'⟩
    obtain ⟨hs, hlen, hsep, hrest⟩ := wellFormedB_cons hwf
    have hes : e ≤ s' := hge (s', e', p') (List.mem_cons_self _ _)
    simp only [List.map_cons, shiftRepl, wellFormedB, Bool.and_eq_true,
      decide_eq_true_eq, List.all_eq_true]
    refine ⟨⟨⟨by omega, by omega⟩, ?_⟩, ?_⟩
    · intro x hx
      rcases List.mem_map.1 hx with ⟨r0, hr0, rfl⟩
      have := hsep r0 hr0
      simp only [shiftRepl]
      omega
    · exact ih len e (fun r hr => hge r (List.mem_cons_of_mem _ hr)) hrest

theorem applyAll_desc_splice_aux : ∀ (n : Nat) (asc : List Repl),
    asc.length ≤ n → ∀ (t : List Char), wellFormedB t.length asc = true →
    applyAll t asc.reverse = spliceSpec t asc := by
  intro n
  induction n with
  | zero =>
    intro asc hlen t _
    have hnil : asc = [] := List.length_eq_zero.1 (by omega)
    subst hnil
    rfl
  | succ n ih =>
    intro asc hlen t hwf
    cases asc with
    | nil => rfl
    | cons r rest =>
      rcases r with ⟨s, e, p⟩
      obtain ⟨hse, helen, hsep, hrest⟩ := wellFormedB_cons hwf
      have hsplit : applyAll t (((s, e, p) :: rest).reverse)
          = applyRepl (applyAll t rest.reverse) (s, e, p) := by
        simp [applyAll, List.reverse_cons, List.foldl_append]
      have hbounds : ∀ r ∈ rest.reverse, e ≤ r.1 ∧ r.1 ≤ r.2.1 := by
        intro r hr
        have hr' : r ∈ rest := List.mem_reverse.1 hr
        exact ⟨hsep r hr', (wellFormedB_bounds hrest r hr').1⟩
      have hA : applyAll t rest.reverse
          = t.take e ++ applyAll (t.drop e) (rest.reverse.map (shiftRepl e)) :=
        applyAll_prefix rest.reverse t e helen hbounds
      have htl : (t.take e).length = e := by
        rw [List.length_take]
        omega
      have h3 : ∀ X : List Char, (t.take e ++ X).take s = t.take s := by
        intro X
        rw [List.take_append_of_le_length (by omega : s ≤ (t.take e).length)]
        rw [List.take_take]
        congr 1
        omega
      have h4 : ∀ X : List Char, (t.take e ++ X).drop e = X := by
        intro X
        rw [List.drop_append_of_le_length (by omega : e ≤ (t.take e).length)]
        rw [List.drop_of_length_le (by omega : (t.take e).length ≤ e)]
        rfl
      have hwf' : wellFormedB (t.drop e).length (rest.map (shiftRepl e)) = true := by
        rw [List.length_drop]
        exact wellFormedB_shift rest t.length e hsep hrest
      have hIH : applyAll (t.drop e) ((rest.map (shiftRepl e)).reverse)
          = spliceSpec (t.drop e) (rest.map (shiftRepl e)) := by
        apply ih (rest.map (shiftRepl e)) _ (t.drop e) hwf'
        rw [List.length_map]
        simpa using Nat.le_of_succ_le_succ hlen
      have hshiftrest : ∀ r ∈ rest, e ≤ r.1 ∧ e ≤ r.2.1 := by
        intro r hr
        have h := hsep r hr
        have h2 := (wellFormedB_bounds hrest r hr).1
        exact ⟨h, by omega⟩
      have hsplice : spliceAux (t.drop e) e rest
          = spliceSpec (t.drop e) (rest.map (shiftRepl e)) := by
        rw [spliceAux_shift rest (t.drop e) e e (Nat.le_refl e) hshiftrest]
        simp [spliceSpec]
      calc applyAll t (((s, e, p) :: rest).reverse)
          = applyRepl (applyAll t rest.reverse) (s, e, p) := hsplit
        _ = applyRepl (t.take e ++ applyAll (t.drop e)
              (rest.reverse.map (shiftRepl e))) (s, e, p) := by rw [hA]
        _ = t.take s ++ p ++ applyAll (t.drop e)
              (rest.reverse.map (shiftRepl e)) := by
            simp only [applyRepl, h3, h4]
        _ = t.take s ++ p ++ applyAll (t.drop e)
              ((rest.map (shiftRepl e)).reverse) := by
            rw [List.map_reverse]
        _ = t.take s ++ p ++ spliceAux (t.drop e) e rest := by
            rw [hIH, hsplice]
        _ = spliceSpec t ((s, e, p) :: rest) := by
            simp [spliceSpec, spliceAux]

theorem applyAll_desc_splice (asc : List Repl) (t : List Char)
    (hwf : wellFormedB t.length asc = true) :
    applyAll t asc.reverse = spliceSpec t asc :=
  applyAll_desc_splice_aux asc.length asc (Nat.le_refl _) t hwf

theorem insertDesc_cases (l : List Repl) (r : Repl) :
    insertDesc r l = r :: l
    ∨ ∃ y l', l = y :: l' ∧ ¬(y.1 ≤ r.1) ∧ insertDesc r l = y :: insertDesc r l' := by
  cases l with
  | nil => exact Or.inl rfl
  | cons y ys =>
    by_cases hc : y.1 ≤ r.1
    · exact Or.inl (by simp [insertDesc, hc])
    · exact Or.inr ⟨y, ys, rfl, hc, by simp [insertDesc, hc]⟩

theorem insertDesc_sorted : ∀ (l : List Repl) (r : Repl),
    sortedDescB l = true → sortedDescB (insertDesc r l) = true := by
  intro l
  induction l with
  | nil => intro r _; rfl
  | cons y ys ih =>
    intro r h
    have hys : sortedDescB ys = true := by
      cases ys with
      | nil => rfl
      | cons z zs =>
        simp only [sortedDescB, Bool.and_eq_true] at h
        exact h.2
    by_cases hc : y.1 ≤ r.1
    · simp only [insertDesc, if_pos hc]
      simp only [sortedDescB, Bool.and_eq_true, decide_eq_true_eq]
      exact ⟨hc, h⟩
    · simp only [insertDesc, if_neg hc]
      have hins : sortedDescB (insertDesc r ys) = true := ih r hys
      rcases insertDesc_cases ys r with hcase | ⟨z, zs, hys_eq, hz, hcase⟩
      · rw [hcase]
        rw [hcase] at hins
        simp only [sortedDescB, Bool.and_eq_true, decide_eq_true_eq]
        exact ⟨by omega, hins⟩
      · rw [hcase]
        rw [hcase] at hins
        have hzy : z.1 ≤ y.1 := by
          rw [hys_eq] at h
          simp only [sortedDescB, Bool.and_eq_true, decide_eq_true_eq] at h
          exact h.1
        simp only [sortedDescB, Bool.and_eq_true, decide_eq_true_eq]
        exact ⟨hzy, hins⟩

theorem sortDescStart_sorted (l : List Repl) :
    sortedDescB (sortDescStart l) = true := by
  induction l with
  | nil => rfl
  | cons x xs ih => exact insertDesc_sorted (sortDescStart xs) x ih

/-- C6: the anonymization core applies its substitutions in descending order
of start offset (the sorted replacement list is sorted by non-increasing
start), and for every batch whose spans — read in ascending start order —
are valid and non-overlapping (each ends at or before the next starts, all
within bounds), the result equals the reference rewrite that concatenates
the untouched segments with the assigned placeholders in left-to-right
order. -/
theorem rightmost_first_refines_splice (t : List Char) (ents : List Ent)
    (m : List (String × List Char)) :
    sortedDescB (sortDescStart (buildReplacements t ents m)) = true
    ∧ (wellFormedB t.length (sortDescStart (buildReplacements t ents m)).reverse
          = true →
       anonymize_core t ents m
         = spliceSpec t (sortDescStart (buildReplacements t ents m)).reverse) := by
  constructor
  · exact sortDescStart_sorted _
  · intro hwf
    have h := applyAll_desc_splice
      (sortDescStart (buildReplacements t ents m)).reverse t hwf
    rw [List.reverse_reverse] at h
    exact h

theorem rightmost_first_refines_splice_witness :
    anonymize_core "Alice met Bob. Alice left.".data
      [(0, 5, "PERSON"), (10, 13, "PERSON"), (15, 20, "PERSON")]
      [("PERSON", "person".data)]
    = spliceSpec "Alice met Bob. Alice left.".data
        (sortDescStart (buildReplacements "Alice met Bob. Alice left.".data
          [(0, 5, "PERSON"), (10, 13, "PERSON"), (15, 20, "PERSON")]
          [("PERSON", "person".data)])).reverse :=
  (rightmost_first_refines_splice "Alice met Bob. Alice left.".data
    [(0, 5, "PERSON"), (10, 13, "PERSON"), (15, 20, "PERSON")]
    [("PERSON", "person".data)]).2 (by decide)

theorem anonymize_single (t : List Char) (s e : Nat) (lab : String)
    (w : List Char) (m : List (String × List Char))
    (hw : List.lookup lab m = some w) :
    anonymize_core t [(s, e, lab)] m = t.take s ++ phStr w 1 ++ t.drop e := by
  have hb : buildReplacements t [(s, e, lab)] m = [(s, e, phStr w 1)] := by
    simp [buildReplacements, entFold, entStep, hw]
  simp [anonymize_core, hb, sortDescStart, insertDesc, applyAll, applyRepl]

/-- C1 (as amended): the code performs no span validation at all.  There is
no InvalidSpan check anywhere in `anonymize_text`: for ANY single-entity
batch whose label is in scope — including spans with start > end or
end > len(text) — the replacement is performed using Python slice
semantics (`text[:start] + placeholder + text[end:]`, with out-of-range
indices clamped and reversed ranges treated as empty matches), instead of
failing.  In particular a reversed span duplicates `text[end:start]` around
the placeholder, producing corrupted partially-redacted output. -/
theorem no_span_validation (t : List Char) (s e : Nat) (lab : String)
    (w : List Char) (m : List (String × List Char))
    (hw : List.lookup lab m = some w) :
    anonymize_core t [(s, e, lab)] m = t.take s ++ phStr w 1 ++ t.drop e :=
  anonymize_single t s e lab w m hw

theorem no_span_validation_witness :
    anonymize_core "hello".data [(3, 1, "PERSON")] [("PERSON", "person".data)]
      = "helperson_1ello".data :=
  no_span_validation "hello".data 3 1 "PERSON" "person".data
    [("PERSON", "person".data)] (by decide)

theorem no_span_validation_counterexample :
    anonymize_core "hello".data [(3, 1, "PERSON")] [("PERSON", "person".data)]
      = "helperson_1ello".data
    ∧ "helperson_1ello".data ≠ "hello".data := by
  constructor
  · decide
  · decide

/-- C7: anonymizing with an empty entity list is the identity transform,
both for the string-level `anonymize_text` and for the core with an
arbitrary placeholder table. -/
theorem identity_on_empty (text : String) (heb : Bool) (t : List Char)
    (m : List (String × List Char)) :
    anonymize_text text [] heb = text ∧ anonymize_core t [] m = t := by
  constructor
  · cases text with
    | mk d => rfl
  · rfl

/-- C8: a zero-length span (start = end) within bounds does not crash the
anonymization (the embedding is a total function) and acts as a pure
insertion of the placeholder at that point: the output is the text up to
the position, then the placeholder, then the rest of the text. -/
theorem zero_length_span_insertion (t : List Char) (i : Nat) (lab : String)
    (w : List Char) (m : List (String × List Char))
    (hw : List.lookup lab m = some w) (_hb : i ≤ t.length) :
    anonymize_core t [(i, i, lab)] m = t.take i ++ phStr w 1 ++ t.drop i :=
  anonymize_single t i i lab w m hw

theorem zero_length_span_insertion_witness :
    anonymize_core "AB".data [(1, 1, "PERSON")] [("PERSON", "person".data)]
      = "Aperson_1B".data :=
  zero_length_span_insertion "AB".data 1 "PERSON" "person".data
    [("PERSON", "person".data)] (by decide) (by decide)

/-- C9: an entity whose category label is not a key of the placeholder
table is filtered out: the anonymization output with that entity present
anywhere in the batch is identical to the output with it removed, so no
replacement is made for it and the text it covers is left exactly as the
remaining entities leave it. -/
theorem category_filtering (t : List Char) (m : List (String × List Char))
    (pre post : List Ent) (s e : Nat) (lab : String)
    (hlab : List.lookup lab m = none) :
    anonymize_core t (pre ++ (s, e, lab) :: post) m
      = anonymize_core t (pre ++ post) m := by
  have hb : buildReplacements t (pre ++ (s, e, lab) :: post) m
      = buildReplacements t (pre ++ post) m := by
    simp only [buildReplacements, entFold, List.foldl_append, List.foldl_cons]
    rw [show entStep t m (List.foldl (entStep t m) ([], []) pre) (s, e, lab)
        = List.foldl (entStep t m) ([], []) pre from by simp [entStep, hlab]]
  simp [anonymize_core, hb]

theorem category_filtering_witness :
    anonymize_core "Acme hired Bob".data [(0, 4, "ORG"), (11, 14, "PERSON")]
      [("PERSON", "person".data)]
      = anonymize_core "Acme hired Bob".data [(11, 14, "PERSON")]
          [("PERSON", "person".data)] :=
  category_filtering "Acme hired Bob".data [("PERSON", "person".data)]
    [] [(11, 14, "PERSON")] 0 4 "ORG" (by decide)

/-- C5: the end-to-end example of the specification: with text
"Alice met Bob. Alice left.", PERSON spans (0,5), (10,13), (15,20) and
placeholder word "person", the output is exactly
"person_1 met person_2. person_1 left." — both for the core with that
exact table and for the repository's English `anonymize_text`. -/
theorem end_to_end_example :
    anonymize_core "Alice met Bob. Alice left.".data
      [(0, 5, "PERSON"), (10, 13, "PERSON"), (15, 20, "PERSON")]
      [("PERSON", "person".data)]
      = "person_1 met person_2. person_1 left.".data
    ∧ anonymize_text "Alice met Bob. Alice left."
      [(0, 5, "PERSON"), (10, 13, "PERSON"), (15, 20, "PERSON")] false
      = "person_1 met person_2. person_1 left." := by
  constructor
  · decide
  · decide

theorem mem_insertDesc {x r : Repl} : ∀ {l : List Repl},
    x ∈ insertDesc r l ↔ x = r ∨ x ∈ l := by
  intro l
  induction l with
  | nil => simp [insertDesc]
  | cons y ys ih =>
    by_cases hc : y.1 ≤ r.1
    · simp [insertDesc, hc]
    · simp only [insertDesc, if_neg hc, List.mem_cons, ih]
      tauto

theorem mem_sortDescStart {x : Repl} : ∀ {l : List Repl},
    x ∈ sortDescStart l ↔ x ∈ l := by
  intro l
  induction l with
  | nil => simp [sortDescStart]
  | cons y ys ih =>
    have : sortDescStart (y :: ys) = insertDesc y (sortDescStart ys) := rfl
    rw [this, mem_insertDesc]
    simp [ih]

theorem any_congr_mem {α : Type} {l1 l2 : List α} {p : α → Bool}
    (h : ∀ x, x ∈ l1 ↔ x ∈ l2) : l1.any p = l2.any p := by
  by_cases hb : l1.any p = true
  · rw [hb]
    symm
    rw [List.any_eq_true] at hb ⊢
    rcases hb with ⟨x, hx, hpx⟩
    exact ⟨x, (h x).1 hx, hpx⟩
  · have hb1 : l1.any p = false := by simpa using hb
    rw [hb1]
    symm
    rw [List.any_eq_false]
    intro x hx
    exact (List.any_eq_false.1 hb1) x ((h x).2 hx)

theorem coveredB_mem_congr (i : Nat) {l1 l2 : List Repl}
    (h : ∀ x, x ∈ l1 ↔ x ∈ l2) : coveredB i l1 = coveredB i l2 :=
  any_congr_mem h

theorem outsideAux_congr {l1 l2 : List Repl}
    (h : ∀ i, coveredB i l1 = coveredB i l2) :
    ∀ (t : List Char) (i : Nat), outsideAux l1 i t = outsideAux l2 i t := by
  intro t
  induction t with
  | nil => intro i; rfl
  | cons c cs ih =>
    intro i
    simp only [outsideAux, h i, ih (i + 1)]

theorem outsideAux_nil_spans : ∀ (t : List Char) (i : Nat),
    outsideAux [] i t = t := by
  intro t
  induction t with
  | nil => intro i; rfl
  | cons c cs ih =>
    intro i
    simp [outsideAux, coveredB, ih (i + 1)]

theorem outsideAux_take : ∀ (k : Nat) (rs : List Repl) (t : List Char) (i : Nat),
    (∀ j, i ≤ j → j < i + k → coveredB j rs = false) →
    outsideAux rs i t = t.take k ++ outsideAux rs (i + k) (t.drop k) := by
  intro k
  induction k with
  | zero => intro rs t i _; simp
  | succ k ih =>
    intro rs t i h
    cases t with
    | nil => simp [outsideAux]
    | cons c cs =>
      have hc : coveredB i rs = false := h i (Nat.le_refl _) (by omega)
      simp only [outsideAux, hc, Bool.false_eq_true, if_false, List.take_succ_cons,
        List.drop_succ_cons]
      rw [ih rs cs (i + 1) (fun j h1 h2 => h j (by omega) (by omega))]
      have harith : i + (k + 1) = i + 1 + k := by omega
      rw [harith]
      simp [List.cons_append]

theorem outsideAux_skip : ∀ (k : Nat) (rs : List Repl) (t : List Char) (i : Nat),
    (∀ j, i ≤ j → j < i + k → coveredB j rs = true) →
    outsideAux rs i t = outsideAux rs (i + k) (t.drop k) := by
  intro k
  induction k with
  | zero => intro rs t i _; simp
  | succ k ih =>
    intro rs t i h
    cases t with
    | nil => simp [outsideAux]
    | cons c cs =>
      have hc : coveredB i rs = true := h i (Nat.le_refl _) (by omega)
      simp only [outsideAux, hc, if_true, List.drop_succ_cons]
      rw [ih rs cs (i + 1) (fun j h1 h2 => h j (by omega) (by omega))]
      have harith : i + (k + 1) = i + 1 + k := by omega
      rw [harith]

theorem outsideAux_shift {rs rs' : List Repl} {e : Nat}
    (h : ∀ j, coveredB (e + j) rs = coveredB j rs') :
    ∀ (t : List Char) (i : Nat), outsideAux rs (e + i) t = outsideAux rs' i t := by
  intro t
  induction t with
  | nil => intro i; rfl
  | cons c cs ih =>
    intro i
    have h2 : e + (i + 1) = (e + i) + 1 := by omega
    simp only [outsideAux, h i, ← ih (i + 1), h2]

theorem any_congr_fun {α : Type} {l : List α} {p q : α → Bool}
    (h : ∀ x ∈ l, p x = q x) : l.any p = l.any q := by
  induction l with
  | nil => rfl
  | cons a as ih =>
    simp only [List.any_cons, h a (List.mem_cons_self _ _),
      ih (fun x hx => h x (List.mem_cons_of_mem _ hx))]

theorem coveredB_false_of_lt_starts {j : Nat} {rs : List Repl}
    (h : ∀ r ∈ rs, j < r.1) : coveredB j rs = false := by
  rw [coveredB, List.any_eq_false]
  intro r hr
  have := h r hr
  simp only [Bool.and_eq_true, decide_eq_true_eq, not_and]
  intro hle
  omega

theorem coveredB_cons_true {j s e : Nat} {p : List Char} {rest : List Repl}
    (h1 : s ≤ j) (h2 : j < e) : coveredB j ((s, e, p) :: rest) = true := by
  simp [coveredB, List.any_cons, h1, h2]

theorem coveredB_shift_eq {s e : Nat} {p : List Char} {rest : List Repl}
    (hsep : ∀ r ∈ rest, e ≤ r.1) (hbnd : ∀ r ∈ rest, r.1 ≤ r.2.1) :
    ∀ j, coveredB (e + j) ((s, e, p) :: rest)
      = coveredB j (rest.map (shiftRepl e)) := by
  intro j
  rw [coveredB, List.any_cons]
  have hhead : (decide ((s, e, p).1 ≤ e + j) && decide (e + j < (s, e, p).2.1))
      = false := by
    simp only [Bool.and_eq_false_iff, decide_eq_false_iff_not]
    right
    omega
  rw [hhead, Bool.false_or, coveredB, List.any_map]
  apply any_congr_fun
  intro r hr
  have h1 := hsep r hr
  have h2 := hbnd r hr
  simp only [Function.comp, shiftRepl]
  have d1 : decide (r.1 ≤ e + j) = decide (r.1 - e ≤ j) :=
    decide_eq_decide.mpr (by omega)
  have d2 : decide (e + j < r.2.1) = decide (j < r.2.1 - e) :=
    decide_eq_decide.mpr (by omega)
  rw [d1, d2]

theorem outsideChars_cons {t : List Char} {s e : Nat} {p : List Char}
    {rest : List Repl} (hse : s ≤ e) (hsep : ∀ r ∈ rest, e ≤ r.1)
    (hbnd : ∀ r ∈ rest, r.1 ≤ r.2.1) :
    outsideChars t ((s, e, p) :: rest)
      = t.take s ++ outsideChars (t.drop e) (rest.map (shiftRepl e)) := by
  have h1 : ∀ j, 0 ≤ j → j < 0 + s → coveredB j ((s, e, p) :: rest) = false := by
    intro j _ hj
    apply coveredB_false_of_lt_starts
    intro r hr
    rcases List.mem_cons.1 hr with rfl | hr'
    · simpa using (by omega : j < s)
    · have := hsep r hr'
      omega
  rw [outsideChars, outsideAux_take s _ t 0 h1, Nat.zero_add]
  have h2 : ∀ j, s ≤ j → j < s + (e - s) → coveredB j ((s, e, p) :: rest) = true :=
    fun j hj1 hj2 => coveredB_cons_true hj1 (by omega)
  rw [outsideAux_skip (e - s) _ (t.drop s) s h2]
  have h3 : s + (e - s) = e := by omega
  rw [h3, List.drop_drop, h3]
  have h4 : e = e + 0 := by omega
  rw [outsideChars, show outsideAux ((s, e, p) :: rest) e (t.drop e)
      = outsideAux ((s, e, p) :: rest) (e + 0) (t.drop e) from by rw [← h4]]
  rw [outsideAux_shift (coveredB_shift_eq hsep hbnd) (t.drop e) 0]

theorem outside_sublist_splice_aux : ∀ (n : Nat) (asc : List Repl),
    asc.length ≤ n → ∀ (t : List Char), wellFormedB t.length asc = true →
    List.Sublist (outsideChars t asc) (spliceSpec t asc) := by
  intro n
  induction n with
  | zero =>
    intro asc hlen t _
    have hnil : asc = [] := List.length_eq_zero.1 (by omega)
    subst hnil
    rw [outsideChars, outsideAux_nil_spans]
    exact List.Sublist.refl t
  | succ n ih =>
    intro asc hlen t hwf
    cases asc with
    | nil =>
      rw [outsideChars, outsideAux_nil_spans]
      exact List.Sublist.refl t
    | cons r rest =>
      rcases r with ⟨s, e, p⟩
      obtain ⟨hse, helen, hsep, hrest⟩ := wellFormedB_cons hwf
      have hbnd : ∀ r ∈ rest, r.1 ≤ r.2.1 :=
        fun r hr => (wellFormedB_bounds hrest r hr).1
      rw [outsideChars_cons hse hsep hbnd]
      have hshiftrest : ∀ r ∈ rest, e ≤ r.1 ∧ e ≤ r.2.1 := by
        intro r hr
        have h1 := hsep r hr
        have h2 := hbnd r hr
        exact ⟨h1, by omega⟩
      have hsplice : spliceSpec t ((s, e, p) :: rest)
          = t.take s ++ (p ++ spliceSpec (t.drop e) (rest.map (shiftRepl e))) := by
        rw [spliceSpec]
        simp only [spliceAux, Nat.sub_zero]
        rw [spliceAux_shift rest (t.drop e) e e (Nat.le_refl e) hshiftrest]
        simp [spliceSpec, List.append_assoc]
      rw [hsplice]
      apply List.Sublist.append (List.Sublist.refl (t.take s))
      have hwf' : wellFormedB (t.drop e).length (rest.map (shiftRepl e)) = true := by
        rw [List.length_drop]
        exact wellFormedB_shift rest t.length e hsep hrest
      have hIH := ih (rest.map (shiftRepl e))
        (by rw [List.length_map]; simpa using Nat.le_of_succ_le_succ hlen)
        (t.drop e) hwf'
      exact hIH.trans (List.sublist_append_right p _)

/-- C2 (as amended): for every valid AND pairwise non-overlapping batch of
spans (read in ascending start order, each span is within bounds and ends
at or before the next starts), every character of the input text outside
all in-scope entity spans appears unchanged and in its original relative
order in the output: the outside characters form a sublist of the result.
The non-overlap condition is necessary: see the counterexample, where a
batch that merely satisfies the structural validity constraints
(0 ≤ start ≤ end ≤ len) but overlaps destroys characters outside all
spans. -/
theorem outside_chars_preserved (t : List Char) (ents : List Ent)
    (m : List (String × List Char))
    (hwf : wellFormedB t.length
        (sortDescStart (buildReplacements t ents m)).reverse = true) :
    List.Sublist (outsideChars t (buildReplacements t ents m))
      (anonymize_core t ents m) := by
  have hmem : ∀ x : Repl,
      x ∈ (sortDescStart (buildReplacements t ents m)).reverse
      ↔ x ∈ buildReplacements t ents m := by
    intro x
    rw [List.mem_reverse, mem_sortDescStart]
  have hcov : ∀ i, coveredB i (buildReplacements t ents m)
      = coveredB i ((sortDescStart (buildReplacements t ents m)).reverse) :=
    fun i => (coveredB_mem_congr i hmem).symm
  have hout : outsideChars t (buildReplacements t ents m)
      = outsideChars t ((sortDescStart (buildReplacements t ents m)).reverse) :=
    outsideAux_congr hcov t 0
  rw [hout]
  have hsub := outside_sublist_splice_aux
    ((sortDescStart (buildReplacements t ents m)).reverse).length
    (sortDescStart (buildReplacements t ents m)).reverse (Nat.le_refl _) t hwf
  have heq := applyAll_desc_splice
    (sortDescStart (buildReplacements t ents m)).reverse t hwf
  rw [List.reverse_reverse] at heq
  show List.Sublist _ (applyAll t (sortDescStart (buildReplacements t ents m)))
  rw [heq]
  exact hsub

theorem outside_chars_preserved_witness :
    List.Sublist
      (outsideChars "Alice met Bob. Alice left.".data
        (buildReplacements "Alice met Bob. Alice left.".data
          [(0, 5, "PERSON"), (10, 13, "PERSON"), (15, 20, "PERSON")]
          [("PERSON", "person".data)]))
      (anonymize_core "Alice met Bob. Alice left.".data
        [(0, 5, "PERSON"), (10, 13, "PERSON"), (15, 20, "PERSON")]
        [("PERSON", "person".data)]) :=
  outside_chars_preserved "Alice met Bob. Alice left.".data
    [(0, 5, "PERSON"), (10, 13, "PERSON"), (15, 20, "PERSON")]
    [("PERSON", "person".data)] (by decide)

theorem outside_chars_overlap_counterexample :
    (∀ r ∈ buildReplacements "aaaaaaaaaaaaaaaaaaXY".data
        [(2, 18, "PERSON"), (0, 18, "PERSON")] [("PERSON", "person".data)],
      r.1 ≤ r.2.1 ∧ r.2.1 ≤ "aaaaaaaaaaaaaaaaaaXY".data.length)
    ∧ coveredB 18 (buildReplacements "aaaaaaaaaaaaaaaaaaXY".data
        [(2, 18, "PERSON"), (0, 18, "PERSON")] [("PERSON", "person".data)]) = false
    ∧ "aaaaaaaaaaaaaaaaaaXY".data[18]? = some 'X'
    ∧ 'X' ∉ anonymize_core "aaaaaaaaaaaaaaaaaaXY".data
        [(2, 18, "PERSON"), (0, 18, "PERSON")] [("PERSON", "person".data)] := by
  decide
